import Mathlib

/-!
Shallow embedding of the street-network extraction pipeline in
`src/readosm.py`: the Way Filter (`get_all_ways`), the Node Registry
(`get_all_nodes`), the Consistency Reconciler (`filter_out_orphan_nodes`),
the Crossing Detector (`get_crossings`) and the Segmenter (`get_segments`).

Python dicts are modelled as association lists (`List (Nat × β)`) in
insertion order; Python sets are modelled as lists whose only observable
is membership.  Coordinate payloads are never computed with, only stored,
so they are kept as an abstract type `α`.
-/

set_option autoImplicit false

/-- The fixed set of street classifications (`WAY_TYPES` in the source). -/
def WAY_TYPES : List String :=
  ["motorway", "trunk", "primary", "secondary", "tertiary",
   "unclassified", "residential", "service", "living_street"]

/-- A child element of a `<way>` element: a node reference (`<nd ref=…>`),
a `<tag k=… v=…>` pair, or any other element (skipped by the source's
loops). -/
inductive WChild where
  | nd (ref : Nat)
  | tag (k v : String)
  | other
deriving DecidableEq

/-- A raw `<way>` record: its integer id and its ordered child elements. -/
structure RawWay where
  id : Nat
  children : List WChild
deriving DecidableEq

/-- A top-level element of the parsed document: a `<node>` record (integer
id plus its coordinate payload of abstract type `α`), a `<way>` record, or
anything else (skipped by the source's loops). -/
inductive Elem (α : Type) where
  | node (id : Nat) (coord : α)
  | way (w : RawWay)
  | other
deriving DecidableEq

/-- Python dict assignment `d[k] = v`: replace the value at the existing
occurrence of `k`, keeping its position, or append `(k, v)` at the end. -/
def dictInsert {β : Type} (d : List (Nat × β)) (k : Nat) (v : β) :
    List (Nat × β) :=
  match d with
  | [] => [(k, v)]
  | p :: rest => if p.1 = k then (k, v) :: rest else p :: dictInsert rest k v

/-- The inverted-index update in the source:
`if node in inv: inv[node].append(wayid) else: inv[node] = [wayid]`. -/
def add_inv (inv : List (Nat × List Nat)) (node wayid : Nat) :
    List (Nat × List Nat) :=
  match inv with
  | [] => [(node, [wayid])]
  | p :: rest =>
    if p.1 = node then (p.1, p.2 ++ [wayid]) :: rest
    else p :: add_inv rest node wayid

/-- The inner loop of `get_all_ways` over a way's children: accumulates
`isstreet` (set when a `tag` child has key `highway` and a value in
`WAY_TYPES`) and the ordered list of `nd` references.  This is the body
of that loop. -/
def ws_step (acc : Bool × List Nat) (c : WChild) : Bool × List Nat :=
  match c with
  | WChild.nd ref => (acc.1, acc.2 ++ [ref])
  | WChild.tag k v =>
      (acc.1 || (k == "highway" && WAY_TYPES.contains v), acc.2)
  | WChild.other => acc

/-- The inner loop of `get_all_ways` proper, starting from
`isstreet = False`, `nodes = []`. -/
def way_scan (children : List WChild) : Bool × List Nat :=
  children.foldl ws_step (false, [])

/-- Processing of one `<way>` element in `get_all_ways`: when `isstreet`,
store `ways[wayid] = nodes` and append `wayid` to the inverted list of
every node of the way. -/
def addWay (acc : List (Nat × List Nat) × List (Nat × List Nat))
    (w : RawWay) : List (Nat × List Nat) × List (Nat × List Nat) :=
  let scanned := way_scan w.children
  if scanned.1 then
    (dictInsert acc.1 w.id scanned.2,
     scanned.2.foldl (fun inv n => add_inv inv n w.id) acc.2)
  else acc

/-- The body of `get_all_ways`'s loop over the document: process `way`
elements, skip everything else. -/
def gaw_step {α : Type}
    (acc : List (Nat × List Nat) × List (Nat × List Nat)) (e : Elem α) :
    List (Nat × List Nat) × List (Nat × List Nat) :=
  match e with
  | Elem.way w => addWay acc w
  | _ => acc

/-- `get_all_ways(root)`: the Way Filter.  Walks the document, keeps the
ways classified as streets, and returns the `ways` map (way id ↦ ordered
node list) together with the inverted way index (node id ↦ list of way
ids). -/
def get_all_ways {α : Type} (root : List (Elem α)) :
    List (Nat × List Nat) × List (Nat × List Nat) :=
  root.foldl gaw_step ([], [])

/-- `get_all_nodes(root, invways)`: the Node Registry.  Walks the
document and stores the coordinate of every `node` record whose id is a
key of the inverted way index (`valid = invways.keys()`); a repeated id
overwrites the stored coordinate.  The source also builds an rtree over
the same data; the spatial index is an external capability and carries no
information beyond the returned hash, so it is not modelled.  This is the
body of the loop over the document. -/
def gan_step {α : Type} (invways : List (Nat × List Nat))
    (nodeshash : List (Nat × α)) (e : Elem α) : List (Nat × α) :=
  match e with
  | Elem.node nid coord =>
      if (invways.map Prod.fst).contains nid then
        dictInsert nodeshash nid coord
      else nodeshash
  | _ => nodeshash

/-- `get_all_nodes` proper: fold the step over the document starting from
the empty hash. -/
def get_all_nodes {α : Type} (root : List (Elem α))
    (invways : List (Nat × List Nat)) : List (Nat × α) :=
  root.foldl (gan_step invways) []

/-- The coordinate of the last `node` record with id `n` in the document,
if any.  This is the specification-side notion of "the last occurrence's
coordinates" used to state last-write-wins. -/
def lastNodeCoord {α : Type} (root : List (Elem α)) (n : Nat) : Option α :=
  match root with
  | [] => none
  | e :: rest =>
    match lastNodeCoord rest n with
    | some c => some c
    | none =>
      match e with
      | Elem.node nid c => if nid = n then some c else none
      | _ => none

/-- `get_crossings(invways)`: the Crossing Detector.  A pure pass over the
inverted index collecting (as a set, modelled by a duplicate-free list)
the node ids whose stored way list has more than one element.  This is
the body of the loop. -/
def crossings_step (crossings : List Nat) (p : Nat × List Nat) : List Nat :=
  if p.2.length > 1 then crossings.insert p.1 else crossings

/-- `get_crossings` proper: fold the step over the inverted index. -/
def get_crossings (invways : List (Nat × List Nat)) : List Nat :=
  invways.foldl crossings_step []

/-- `filter_out_orphan_nodes(ways, invways, nodeshash)`: the Consistency
Reconciler.  Fast path: when the number of inverted-index keys equals the
number of registry keys, return the inputs unchanged.  Otherwise drop
from every way's node list, and from the inverted index's keys, the node
ids without a stored coordinate. -/
def filter_out_orphan_nodes {α : Type} (ways : List (Nat × List Nat))
    (invways : List (Nat × List Nat)) (nodeshash : List (Nat × α)) :
    List (Nat × List Nat) × List (Nat × List Nat) :=
  if invways.length = nodeshash.length then (ways, invways)
  else
    let validnodes := nodeshash.map Prod.fst
    (ways.map (fun p => (p.1, p.2.filter (fun nodeid => validnodes.contains nodeid))),
     invways.filter (fun p => validnodes.contains p.1))

/-- The running state of the Segmenter inside one way: the growing node
buffer `segment`, the segment ids closed so far in this way (`closed`),
the segment inverted index, and the next segment id. -/
structure SegState where
  segment : List Nat
  closed : List Nat
  invsegments : List (Nat × List Nat)
  sid : Nat
deriving DecidableEq

/-- One step of the Segmenter's inner loop.  The current node is appended
to the buffer; when it is a crossing and the buffer now has more than one
node, the current segment id is recorded as closed and the inverted index
is updated.  Two behaviours of the source are reproduced faithfully: the
inner update loop `for nod in segment:` ignores its loop variable and
keys the index by `node` (the closing crossing) on every iteration, and
the buffer is never reset after a close. -/
def seg_step (myset : List Nat) (st : SegState) (node : Nat) : SegState :=
  let segment := st.segment ++ [node]
  if myset.contains node && decide (segment.length > 1) then
    { segment := segment,
      closed := st.closed ++ [st.sid],
      invsegments :=
        segment.foldl (fun inv _nod => add_inv inv node st.sid) st.invsegments,
      sid := st.sid + 1 }
  else
    { st with segment := segment }

/-- The Segmenter's scan of one way's node list, starting from segment id
`sid0` and inverted index `inv0`, with a fresh empty buffer. -/
def processWay (myset : List Nat) (sid0 : Nat)
    (inv0 : List (Nat × List Nat)) (nodes : List Nat) : SegState :=
  nodes.foldl (seg_step myset)
    { segment := [], closed := [], invsegments := inv0, sid := sid0 }

/-- The segment entries contributed by one way.  In the source,
`segments[sid] = segment` stores a reference to the buffer list, the
buffer is never replaced within a way, and every node is appended to it;
so by the time `get_segments` returns, every segment id closed in a way
is bound to the way's final buffer.  The model therefore binds each
closed id to the buffer as it stands at the end of the way's scan. -/
def waySegments (myset : List Nat) (sid0 : Nat)
    (inv0 : List (Nat × List Nat)) (nodes : List Nat) :
    List (Nat × List Nat) :=
  ((processWay myset sid0 inv0 nodes).closed).map
    (fun s => (s, (processWay myset sid0 inv0 nodes).segment))

/-- `get_segments(ways, crossings)`: the Segmenter.  Ways whose node list
does not meet the crossing set are skipped; each processed way appends
its segment entries and threads the segment counter and the segment
inverted index forward. -/
def get_segments (ways : List (Nat × List Nat)) (crossings : List Nat) :
    List (Nat × List Nat) × List (Nat × List Nat) :=
  let myset := crossings
  let out := ways.foldl
    (fun (acc : List (Nat × List Nat) × List (Nat × List Nat) × Nat) p =>
      if p.2.any (fun n => myset.contains n) then
        let st := processWay myset acc.2.2 acc.2.1 p.2
        (acc.1 ++ waySegments myset acc.2.2 acc.2.1 p.2,
         st.invsegments, st.sid)
      else acc)
    ([], [], 0)
  (out.1, out.2.1)

/-- The classification predicate applied to one way child: a `tag` child
with key `highway` and a value in `WAY_TYPES`. -/
def isHighwayTag (c : WChild) : Bool :=
  match c with
  | WChild.tag k v => k == "highway" && WAY_TYPES.contains v
  | _ => false

/-- The node reference carried by a way child, if any. -/
def ndRefOf (c : WChild) : Option Nat :=
  match c with
  | WChild.nd r => some r
  | _ => none

/-- The ids of the `way` elements of a document, in order. -/
def wayIds {α : Type} (root : List (Elem α)) : List Nat :=
  root.filterMap (fun e =>
    match e with
    | Elem.way w => some w.id
    | _ => none)

/-- `wid` appears in some value list of an inverted index. -/
def appearsIn (wid : Nat) (inv : List (Nat × List Nat)) : Prop :=
  ∃ p ∈ inv, wid ∈ p.2

/-- Some `way` element of the document has id `wid` and is classified as
a street by `way_scan`. -/
def streetWayIn {α : Type} (root : List (Elem α)) (wid : Nat) : Prop :=
  ∃ w, Elem.way w ∈ root ∧ w.id = wid ∧ (way_scan w.children).1 = true

/-- Some `way` element of the document has id `wid`, is classified as a
street, and has a nonempty node-reference list. -/
def streetWayRef {α : Type} (root : List (Elem α)) (wid : Nat) : Prop :=
  ∃ w, Elem.way w ∈ root ∧ w.id = wid ∧ (way_scan w.children).1 = true ∧
    (way_scan w.children).2 ≠ []

/-! ## Helper lemmas -/

theorem lookup_cons {β : Type} (p : Nat × β) (rest : List (Nat × β))
    (k : Nat) :
    (p :: rest).lookup k = if k = p.1 then some p.2 else rest.lookup k := by
  by_cases h : k = p.1
  · rw [List.lookup, if_pos h, show (k == p.1) = true from beq_iff_eq.mpr h]
  · rw [List.lookup, if_neg h,
      show (k == p.1) = false from beq_eq_false_iff_ne.mpr h]

theorem lookup_dictInsert_self {β : Type} (d : List (Nat × β)) (k : Nat)
    (v : β) : (dictInsert d k v).lookup k = some v := by
  induction d with
  | nil => simp [dictInsert, lookup_cons]
  | cons p rest ih =>
    by_cases h : p.1 = k
    · simp [dictInsert, h, lookup_cons]
    · simp [dictInsert, h, lookup_cons, Ne.symm h, ih]

theorem lookup_nil {β : Type} (k : Nat) :
    ([] : List (Nat × β)).lookup k = none := rfl

theorem lookup_dictInsert_ne {β : Type} (d : List (Nat × β)) (k k' : Nat)
    (v : β) (h : k' ≠ k) :
    (dictInsert d k v).lookup k' = d.lookup k' := by
  induction d with
  | nil => simp [dictInsert, lookup_cons, lookup_nil, h]
  | cons p rest ih =>
    by_cases hp : p.1 = k
    · subst hp
      simp [dictInsert, lookup_cons, h]
    · by_cases hp' : k' = p.1
      · simp [dictInsert, hp, lookup_cons, hp']
      · simp [dictInsert, hp, lookup_cons, hp', ih]

theorem mem_keys_dictInsert {β : Type} (d : List (Nat × β)) (k a : Nat)
    (v : β) :
    a ∈ (dictInsert d k v).map Prod.fst ↔ a = k ∨ a ∈ d.map Prod.fst := by
  induction d with
  | nil => simp [dictInsert]
  | cons p rest ih =>
    by_cases h : p.1 = k
    · subst h
      simp [dictInsert]
    · simp only [dictInsert, h, if_false, List.map_cons, List.mem_cons, ih]
      tauto

theorem nodup_keys_dictInsert {β : Type} (d : List (Nat × β)) (k : Nat)
    (v : β) (h : (d.map Prod.fst).Nodup) :
    ((dictInsert d k v).map Prod.fst).Nodup := by
  induction d with
  | nil => simp [dictInsert]
  | cons p rest ih =>
    simp only [List.map_cons, List.nodup_cons] at h
    by_cases hp : p.1 = k
    · subst hp
      simpa [dictInsert] using h
    · simp only [dictInsert, hp, if_false, List.map_cons, List.nodup_cons]
      refine ⟨fun hc => ?_, ih h.2⟩
      rcases (mem_keys_dictInsert rest k p.1 v).mp hc with h1 | h2
      · exact hp h1
      · exact h.1 h2

theorem lookup_isSome_iff_mem_keys {β : Type} (d : List (Nat × β))
    (k : Nat) : (d.lookup k).isSome = true ↔ k ∈ d.map Prod.fst := by
  induction d with
  | nil => simp [List.lookup]
  | cons p rest ih =>
    by_cases h : k = p.1
    · simp [lookup_cons, h]
    · simp [lookup_cons, h, ih]

theorem lookup_eq_some_iff_mem {β : Type} (d : List (Nat × β))
    (hnd : (d.map Prod.fst).Nodup) (k : Nat) (v : β) :
    d.lookup k = some v ↔ (k, v) ∈ d := by
  induction d with
  | nil => simp [lookup_nil]
  | cons p rest ih =>
    obtain ⟨p1, p2⟩ := p
    simp only [List.map_cons, List.nodup_cons] at hnd
    rw [lookup_cons]
    by_cases h : k = p1
    · subst h
      rw [if_pos rfl]
      simp only [List.mem_cons]
      constructor
      · intro hv
        injection hv with hv
        left
        rw [hv]
      · rintro (hv | hv)
        · injection hv with h1 h2
          rw [h2]
        · exact absurd (List.mem_map_of_mem Prod.fst hv) hnd.1
    · rw [if_neg h, ih hnd.2]
      simp only [List.mem_cons]
      constructor
      · exact Or.inr
      · rintro (hv | hv)
        · injection hv with h1 h2
          exact absurd h1 h
        · exact hv

theorem filter_idem {γ : Type} (l : List γ) (p : γ → Bool) :
    (l.filter p).filter p = l.filter p := by
  induction l with
  | nil => rfl
  | cons a rest ih =>
    by_cases h : p a
    · simp [List.filter, h, ih]
    · simp [List.filter, h, ih]

theorem contains_iff_mem (l : List Nat) (a : Nat) :
    l.contains a = true ↔ a ∈ l := by
  simp [List.contains]

theorem map_filter_idem {γ : Type} (l : List (Nat × List γ)) (c : γ → Bool) :
    (l.map (fun p => (p.1, p.2.filter c))).map (fun p => (p.1, p.2.filter c))
      = l.map (fun p => (p.1, p.2.filter c)) := by
  induction l with
  | nil => rfl
  | cons a rest ih => simp [filter_idem, ih]

theorem map_filter_id_of_valid {γ : Type} (l : List (Nat × List γ))
    (c : γ → Bool) (h : ∀ p ∈ l, ∀ x ∈ p.2, c x = true) :
    l.map (fun p => (p.1, p.2.filter c)) = l := by
  induction l with
  | nil => rfl
  | cons a rest ih =>
    have h1 : a.2.filter c = a.2 :=
      List.filter_eq_self.mpr (fun x hx => h a (List.mem_cons_self a rest) x hx)
    simp only [List.map_cons, h1]
    rw [ih (fun p hp x hx => h p (List.mem_cons_of_mem a hp) x hx)]

/-- C6: the Consistency Reconciler is idempotent: rerunning
`filter_out_orphan_nodes` on its own output (with the same node registry)
returns that output unchanged.  This holds for every input triple, in
particular for the triples arising in the pipeline. -/
theorem reconciler_idempotent {α : Type} (ways invways : List (Nat × List Nat))
    (nodeshash : List (Nat × α)) :
    filter_out_orphan_nodes (filter_out_orphan_nodes ways invways nodeshash).1
      (filter_out_orphan_nodes ways invways nodeshash).2 nodeshash =
      filter_out_orphan_nodes ways invways nodeshash := by
  by_cases h : invways.length = nodeshash.length
  · simp [filter_out_orphan_nodes, h]
  · by_cases h2 : (invways.filter
        (fun p => (nodeshash.map Prod.fst).contains p.1)).length = nodeshash.length
    · simp [filter_out_orphan_nodes, h, h2]
    · simp only [filter_out_orphan_nodes, h, if_false, h2]
      rw [map_filter_idem, filter_idem]

/-- C7 counterexample: an input in which every node id occurring in the
inverted index (here: none) has a coordinate, yet the reconciler changes
the ways mapping, because way 1 references node 5 which has no
coordinate. -/
theorem reconciler_changes_input_ce :
    (∀ k ∈ (([] : List (Nat × List Nat)).map Prod.fst),
        k ∈ ([(7, ())] : List (Nat × Unit)).map Prod.fst) ∧
      filter_out_orphan_nodes [(1, [5])] ([] : List (Nat × List Nat))
        ([(7, ())] : List (Nat × Unit)) ≠ ([(1, [5])], []) := by
  constructor
  · intro k hk
    simp at hk
  · decide

/-- C7 amended: when every node id occurring in the inverted index AND
every node id occurring in a way's node list has a coordinate in the
registry, the reconciler returns the ways mapping and the inverted index
unchanged. -/
theorem reconciler_identity_when_all_referenced_known {α : Type}
    (ways invways : List (Nat × List Nat)) (nodeshash : List (Nat × α))
    (hI : ∀ k ∈ invways.map Prod.fst, k ∈ nodeshash.map Prod.fst)
    (hW : ∀ p ∈ ways, ∀ x ∈ p.2, x ∈ nodeshash.map Prod.fst) :
    filter_out_orphan_nodes ways invways nodeshash = (ways, invways) := by
  by_cases h : invways.length = nodeshash.length
  · simp [filter_out_orphan_nodes, h]
  · simp only [filter_out_orphan_nodes, h, if_false]
    rw [map_filter_id_of_valid ways _
        (fun p hp x hx => (contains_iff_mem _ x).mpr (hW p hp x hx))]
    rw [List.filter_eq_self.mpr
        (fun p hp => (contains_iff_mem _ p.1).mpr
          (hI p.1 (List.mem_map_of_mem Prod.fst hp)))]

theorem reconciler_identity_witness :
    (∀ k ∈ ([(5, [1])] : List (Nat × List Nat)).map Prod.fst,
        k ∈ ([(5, ())] : List (Nat × Unit)).map Prod.fst) ∧
      (∀ p ∈ ([(1, [5])] : List (Nat × List Nat)), ∀ x ∈ p.2,
        x ∈ ([(5, ())] : List (Nat × Unit)).map Prod.fst) ∧
      filter_out_orphan_nodes [(1, [5])] [(5, [1])]
        ([(5, ())] : List (Nat × Unit)) = ([(1, [5])], [(5, [1])]) :=
  ⟨by decide, by decide,
    reconciler_identity_when_all_referenced_known [(1, [5])] [(5, [1])]
      [(5, ())] (by decide) (by decide)⟩

/-- C5 counterexample: a raw way with no node references but a
`highway=residential` tag IS retained by `get_all_ways` (with an empty
node list), so a zero-node way's id is not absent from the output. -/
theorem zero_node_way_retained_ce :
    (get_all_ways ([Elem.way ⟨1, [WChild.tag "highway" "residential"]⟩] :
        List (Elem Unit))).1 = [(1, [])] := by
  decide

/-- C1 evaluation at the failing input: for the way `1 ↦ [1,2,3,4,5]`
with crossings `{3,5}`, the source emits segments 0 and 1 both equal to
the whole node list (the buffer is never restarted at the closing
crossing), and the later segment begins with node 1, not with the earlier
segment's last node. -/
theorem segmenter_no_restart_eval :
    get_segments [(1, [1, 2, 3, 4, 5])] [3, 5] =
        ([(0, [1, 2, 3, 4, 5]), (1, [1, 2, 3, 4, 5])],
         [(3, [0, 0, 0]), (5, [1, 1, 1, 1, 1])]) ∧
      (((get_segments [(1, [1, 2, 3, 4, 5])] [3, 5]).1.lookup 1).getD []).head?
        = some 1 := by
  constructor
  · decide
  · decide

/-- C2 evaluation at the failing input: for the way `1 ↦ [1,2,3]` with
crossings `{3}`, node 1 belongs to emitted segment 0 but is not a key of
the segment inverted index; only the closing crossing 3 is recorded, once
per buffered node. -/
theorem segment_inverted_index_eval :
    get_segments [(1, [1, 2, 3])] [3] = ([(0, [1, 2, 3])], [(3, [0, 0, 0])]) ∧
      (get_segments [(1, [1, 2, 3])] [3]).2.lookup 1 = none ∧
      1 ∈ ((get_segments [(1, [1, 2, 3])] [3]).1.lookup 0).getD [] := by
  refine ⟨by decide, by decide, by decide⟩

/-- C10 counterexample: way `1 ↦ [1,2,3,4,5]` with crossings `{3,5}`
emits two segments with ids 0 and 1; both equal `[1,2,3,4,5]`, so the
earlier-id segment's node list is not a STRICT prefix of the later one's
(it is equal to it). -/
theorem segment_strict_prefix_ce :
    (get_segments [(1, [1, 2, 3, 4, 5])] [3, 5]).1.lookup 0
        = some [1, 2, 3, 4, 5] ∧
      (get_segments [(1, [1, 2, 3, 4, 5])] [3, 5]).1.lookup 1
        = some [1, 2, 3, 4, 5] ∧
      ¬ (([1, 2, 3, 4, 5] : List Nat) <+: [1, 2, 3, 4, 5] ∧
          ([1, 2, 3, 4, 5] : List Nat) ≠ [1, 2, 3, 4, 5]) := by
  refine ⟨by decide, by decide, ?_⟩
  rintro ⟨-, hne⟩
  exact hne rfl

theorem foldl_seg_step_segment (myset : List Nat) (nodes : List Nat) :
    ∀ st : SegState,
      (nodes.foldl (seg_step myset) st).segment = st.segment ++ nodes := by
  induction nodes with
  | nil => intro st; simp
  | cons n rest ih =>
    intro st
    rw [List.foldl_cons, ih]
    have hstep : (seg_step myset st n).segment = st.segment ++ [n] := by
      rw [seg_step]
      split
      · rfl
      · rfl
    rw [hstep]
    simp

theorem processWay_segment (myset : List Nat) (sid0 : Nat)
    (inv0 : List (Nat × List Nat)) (nodes : List Nat) :
    (processWay myset sid0 inv0 nodes).segment = nodes := by
  rw [processWay, foldl_seg_step_segment]
  simp

/-- C10 amended: every segment emitted from a way begins with the way's
first node id, and each earlier-id segment's node list is a prefix — not
necessarily strict: in fact equal, namely the way's full node list — of
each later-id segment's node list from the same way. -/
theorem segments_of_way_share_buffer (myset : List Nat) (sid0 : Nat)
    (inv0 : List (Nat × List Nat)) (nodes : List Nat) (s1 s2 : Nat)
    (l1 l2 : List Nat)
    (h1 : (s1, l1) ∈ waySegments myset sid0 inv0 nodes)
    (h2 : (s2, l2) ∈ waySegments myset sid0 inv0 nodes) :
    l1.head? = nodes.head? ∧ l1 <+: l2 ∧ nodes ≠ [] := by
  have hseg := processWay_segment myset sid0 inv0 nodes
  have e1 : l1 = nodes := by
    rcases List.mem_map.mp h1 with ⟨s, _, he⟩
    injection he with he1 he2
    rw [← he2, hseg]
  have e2 : l2 = nodes := by
    rcases List.mem_map.mp h2 with ⟨s, _, he⟩
    injection he with he1 he2
    rw [← he2, hseg]
  have hne : nodes ≠ [] := by
    intro hn
    subst hn
    simp [waySegments, processWay] at h1
  exact ⟨by rw [e1], by rw [e1, e2], hne⟩

theorem segments_of_way_share_buffer_witness :
    (0, [1, 2, 3, 4, 5]) ∈ waySegments [3, 5] 0 [] [1, 2, 3, 4, 5] ∧
      (1, [1, 2, 3, 4, 5]) ∈ waySegments [3, 5] 0 [] [1, 2, 3, 4, 5] ∧
      (([1, 2, 3, 4, 5] : List Nat).head? = ([1, 2, 3, 4, 5] : List Nat).head? ∧
        ([1, 2, 3, 4, 5] : List Nat) <+: [1, 2, 3, 4, 5] ∧
        ([1, 2, 3, 4, 5] : List Nat) ≠ []) :=
  ⟨by decide, by decide,
    segments_of_way_share_buffer [3, 5] 0 [] [1, 2, 3, 4, 5] 0 1
      [1, 2, 3, 4, 5] [1, 2, 3, 4, 5] (by decide) (by decide)⟩

theorem mem_crossings_fold (l : List (Nat × List Nat)) :
    ∀ (acc : List Nat) (n : Nat),
      n ∈ l.foldl crossings_step acc ↔
        n ∈ acc ∨ ∃ p ∈ l, p.1 = n ∧ 1 < p.2.length := by
  induction l with
  | nil =>
    intro acc n
    simp
  | cons p rest ih =>
    intro acc n
    rw [List.foldl_cons, ih]
    have hstep : n ∈ crossings_step acc p ↔
        n ∈ acc ∨ (p.1 = n ∧ 1 < p.2.length) := by
      rw [crossings_step]
      split
      · rename_i h
        rw [List.mem_insert_iff]
        constructor
        · rintro (he | ha)
          · exact Or.inr ⟨he.symm, h⟩
          · exact Or.inl ha
        · rintro (ha | ⟨he, -⟩)
          · exact Or.inr ha
          · exact Or.inl he.symm
      · rename_i h
        constructor
        · exact Or.inl
        · rintro (ha | ⟨-, hl⟩)
          · exact ha
          · exact absurd hl h
    rw [hstep, List.exists_mem_cons_iff]
    tauto

/-- C8: the Crossing Detector is a pure function of the inverted index
(the embedding is functional, and `get_crossings` returns a fresh list
without touching its argument): a node id `n` is in the crossing set iff
`n` is a key of the inverted index whose stored way-id list has length
strictly greater than 1. -/
theorem crossing_iff_multiref (invways : List (Nat × List Nat))
    (hnd : (invways.map Prod.fst).Nodup) (n : Nat) :
    n ∈ get_crossings invways ↔
      ∃ l, invways.lookup n = some l ∧ 1 < l.length := by
  rw [get_crossings, mem_crossings_fold]
  simp only [List.not_mem_nil, false_or]
  constructor
  · rintro ⟨p, hp, he, hl⟩
    obtain ⟨p1, p2⟩ := p
    subst he
    exact ⟨p2, (lookup_eq_some_iff_mem invways hnd p1 p2).mpr hp, hl⟩
  · rintro ⟨l, hl, hlen⟩
    exact ⟨(n, l), (lookup_eq_some_iff_mem invways hnd n l).mp hl, rfl, hlen⟩

theorem crossing_iff_multiref_witness :
    (([(1, [10, 20]), (2, [30])] : List (Nat × List Nat)).map
        Prod.fst).Nodup ∧
      (1 ∈ get_crossings [(1, [10, 20]), (2, [30])] ↔
        ∃ l, ([(1, [10, 20]), (2, [30])] : List (Nat × List Nat)).lookup 1
            = some l ∧ 1 < l.length) :=
  ⟨by decide, crossing_iff_multiref [(1, [10, 20]), (2, [30])] (by decide) 1⟩

theorem lastNodeCoord_cons_node {α : Type} (nid : Nat) (c : α)
    (rest : List (Elem α)) (n : Nat) :
    lastNodeCoord (Elem.node nid c :: rest) n =
      (lastNodeCoord rest n).or (if nid = n then some c else none) := by
  rw [lastNodeCoord]
  cases hl : lastNodeCoord rest n <;> simp

theorem lastNodeCoord_cons_way {α : Type} (w : RawWay)
    (rest : List (Elem α)) (n : Nat) :
    lastNodeCoord (Elem.way w :: rest) n = lastNodeCoord rest n := by
  cases hl : lastNodeCoord rest n <;> rw [lastNodeCoord, hl] <;>
    intro nid coord h <;> cases h

theorem lastNodeCoord_cons_other {α : Type} (rest : List (Elem α))
    (n : Nat) :
    lastNodeCoord (Elem.other :: rest) n = lastNodeCoord rest n := by
  cases hl : lastNodeCoord rest n <;> rw [lastNodeCoord, hl] <;>
    intro nid coord h <;> cases h

theorem lookup_gan_fold {α : Type} (invways : List (Nat × List Nat))
    (root : List (Elem α)) :
    ∀ (acc : List (Nat × α)) (n : Nat),
      (root.foldl (gan_step invways) acc).lookup n =
        if (invways.map Prod.fst).contains n then
          (lastNodeCoord root n).or (acc.lookup n)
        else acc.lookup n := by
  induction root with
  | nil =>
    intro acc n
    rw [List.foldl_nil, lastNodeCoord]
    simp
  | cons e rest ih =>
    intro acc n
    rw [List.foldl_cons, ih]
    cases e with
    | node nid c =>
      rw [lastNodeCoord_cons_node]
      by_cases hc : (invways.map Prod.fst).contains n
      · rw [if_pos hc, if_pos hc]
        cases hl : lastNodeCoord rest n with
        | some c' => simp
        | none =>
          simp only [Option.none_or]
          by_cases hn : nid = n
          · subst hn
            rw [if_pos rfl]
            simp only [gan_step]
            rw [if_pos hc, lookup_dictInsert_self]
            rfl
          · rw [if_neg hn]
            simp only [gan_step]
            by_cases hcn : (invways.map Prod.fst).contains nid
            · rw [if_pos hcn, lookup_dictInsert_ne acc nid n c (Ne.symm hn)]
              exact Option.none_or.symm
            · rw [if_neg hcn]
              exact Option.none_or.symm
      · rw [if_neg hc, if_neg hc]
        simp only [gan_step]
        by_cases hn : nid = n
        · subst hn
          rw [if_neg hc]
        · by_cases hcn : (invways.map Prod.fst).contains nid
          · rw [if_pos hcn, lookup_dictInsert_ne acc nid n c (Ne.symm hn)]
          · rw [if_neg hcn]
    | way w =>
      rw [lastNodeCoord_cons_way]
      rfl
    | other =>
      rw [lastNodeCoord_cons_other]
      rfl

/-- C9: characterization of the Node Registry.  The lookup of a node id
`n` in `get_all_nodes root invways` is the coordinate of the LAST `node`
record with id `n` in the document when `n` is a key of the inverted
index (the required set), and `none` otherwise: ids outside the required
set are ignored even if present in the source, and a repeated id keeps
the later occurrence's coordinates. -/
theorem node_registry_last_write_wins {α : Type} (root : List (Elem α))
    (invways : List (Nat × List Nat)) (n : Nat) :
    (get_all_nodes root invways).lookup n =
      if (invways.map Prod.fst).contains n then lastNodeCoord root n
      else none := by
  rw [get_all_nodes, lookup_gan_fold, lookup_nil]
  cases hl : lastNodeCoord root n <;> simp

theorem keys_gan_sub {α : Type} (root : List (Elem α))
    (invways : List (Nat × List Nat)) :
    ∀ k ∈ (get_all_nodes root invways).map Prod.fst,
      k ∈ invways.map Prod.fst := by
  intro k hk
  have h1 := (lookup_isSome_iff_mem_keys (get_all_nodes root invways) k).mpr hk
  rw [get_all_nodes, lookup_gan_fold, lookup_nil] at h1
  by_cases hc : (invways.map Prod.fst).contains k
  · exact (contains_iff_mem _ k).mp hc
  · rw [if_neg hc] at h1
    simp at h1

theorem keys_gan_nodup {α : Type} (invways : List (Nat × List Nat))
    (root : List (Elem α)) :
    ∀ acc : List (Nat × α), ((acc.map Prod.fst).Nodup) →
      (((root.foldl (gan_step invways) acc).map Prod.fst).Nodup) := by
  induction root with
  | nil => exact fun acc h => h
  | cons e rest ih =>
    intro acc h
    rw [List.foldl_cons]
    apply ih
    cases e with
    | node nid c =>
      simp only [gan_step]
      by_cases hcn : (invways.map Prod.fst).contains nid
      · rw [if_pos hcn]
        exact nodup_keys_dictInsert acc nid c h
      · rw [if_neg hcn]
        exact h
    | way w => exact h
    | other => exact h

/-- C3: after the Consistency Reconciler runs on a registry that was
built from exactly the inverted index's key set (`get_all_nodes root
invways`), the key set of the returned inverted index equals the key set
of the registry: every node referenced by a retained way has known
coordinates and every node with known coordinates is referenced by at
least one retained way. -/
theorem reconciled_keys_match_registry {α : Type}
    (ways invways : List (Nat × List Nat)) (root : List (Elem α)) :
    (((filter_out_orphan_nodes ways invways
        (get_all_nodes root invways)).2).map Prod.fst).toFinset =
      ((get_all_nodes root invways).map Prod.fst).toFinset := by
  have hnd : ((get_all_nodes root invways).map Prod.fst).Nodup := by
    rw [get_all_nodes]
    exact keys_gan_nodup invways root [] (by simp)
  have hsub := keys_gan_sub root invways
  by_cases h : invways.length = (get_all_nodes root invways).length
  · have hfast : (filter_out_orphan_nodes ways invways
        (get_all_nodes root invways)).2 = invways := by
      rw [filter_out_orphan_nodes, if_pos h]
    rw [hfast]
    have hc1 : ((get_all_nodes root invways).map Prod.fst).toFinset.card
        = (get_all_nodes root invways).length := by
      rw [List.toFinset_card_of_nodup hnd, List.length_map]
    have hsubF : ((get_all_nodes root invways).map Prod.fst).toFinset ⊆
        (invways.map Prod.fst).toFinset := by
      intro k hk
      exact List.mem_toFinset.mpr (hsub k (List.mem_toFinset.mp hk))
    have hc2 : (invways.map Prod.fst).toFinset.card ≤ invways.length := by
      calc (invways.map Prod.fst).toFinset.card
          ≤ (invways.map Prod.fst).length := List.toFinset_card_le _
        _ = invways.length := List.length_map _ _
    have hle : (invways.map Prod.fst).toFinset.card ≤
        ((get_all_nodes root invways).map Prod.fst).toFinset.card := by
      rw [hc1, ← h]
      exact hc2
    exact (Finset.eq_of_subset_of_card_le hsubF hle).symm
  · have hslow : (filter_out_orphan_nodes ways invways
        (get_all_nodes root invways)).2 =
        invways.filter
          (fun p => ((get_all_nodes root invways).map Prod.fst).contains p.1) := by
      rw [filter_out_orphan_nodes, if_neg h]
    rw [hslow]
    ext k
    simp only [List.mem_toFinset, List.mem_map]
    constructor
    · rintro ⟨p, hp, he⟩
      rcases List.mem_filter.mp hp with ⟨hpm, hpc⟩
      subst he
      rcases List.mem_map.mp ((contains_iff_mem _ p.1).mp hpc) with ⟨q, hq, hqe⟩
      exact ⟨q, hq, hqe⟩
    · rintro ⟨q, hq, hqe⟩
      subst hqe
      have hkN : q.1 ∈ (get_all_nodes root invways).map Prod.fst :=
        List.mem_map_of_mem Prod.fst hq
      rcases List.mem_map.mp (hsub q.1 hkN) with ⟨p, hp, hpe⟩
      refine ⟨p, List.mem_filter.mpr ⟨hp, ?_⟩, hpe⟩
      rw [hpe]
      exact (contains_iff_mem _ q.1).mpr hkN

theorem contains_iff_mem_beq {γ : Type} [BEq γ] [LawfulBEq γ] (l : List γ)
    (a : γ) : l.contains a = true ↔ a ∈ l := by
  simp [List.contains]

theorem ws_fold (children : List WChild) :
    ∀ acc : Bool × List Nat,
      children.foldl ws_step acc =
        (acc.1 || children.any isHighwayTag,
         acc.2 ++ children.filterMap ndRefOf) := by
  induction children with
  | nil =>
    intro acc
    simp
  | cons c rest ih =>
    intro acc
    rw [List.foldl_cons, ih]
    cases c with
    | nd ref => simp [ws_step, isHighwayTag, ndRefOf]
    | tag k v => simp [ws_step, isHighwayTag, ndRefOf, Bool.or_assoc]
    | other => simp [ws_step, isHighwayTag, ndRefOf]

theorem way_scan_eq (children : List WChild) :
    way_scan children =
      (children.any isHighwayTag, children.filterMap ndRefOf) := by
  rw [way_scan, ws_fold]
  simp

theorem isHighwayTag_eq_true (c : WChild) :
    isHighwayTag c = true ↔
      ∃ v, c = WChild.tag "highway" v ∧ v ∈ WAY_TYPES := by
  cases c with
  | nd ref => simp [isHighwayTag]
  | other => simp [isHighwayTag]
  | tag k v =>
    rw [isHighwayTag]
    rw [Bool.and_eq_true, beq_iff_eq, contains_iff_mem_beq]
    constructor
    · rintro ⟨hk, hv⟩
      exact ⟨v, by rw [hk], hv⟩
    · rintro ⟨v', he, hv⟩
      injection he with h1 h2
      exact ⟨h1, h2 ▸ hv⟩

theorem streetWayIn_cons_way {α : Type} (w' : RawWay)
    (rest : List (Elem α)) (wid : Nat) :
    streetWayIn (Elem.way w' :: rest) wid ↔
      (w'.id = wid ∧ (way_scan w'.children).1 = true) ∨
        streetWayIn rest wid := by
  constructor
  · rintro ⟨w, hw, hid, hst⟩
    rcases List.mem_cons.mp hw with h | h
    · injection h with h
      subst h
      exact Or.inl ⟨hid, hst⟩
    · exact Or.inr ⟨w, h, hid, hst⟩
  · rintro (⟨hid, hst⟩ | ⟨w, hw, hid, hst⟩)
    · exact ⟨w', List.mem_cons_self _ _, hid, hst⟩
    · exact ⟨w, List.mem_cons_of_mem _ hw, hid, hst⟩

theorem streetWayIn_cons_node {α : Type} (nid : Nat) (c : α)
    (rest : List (Elem α)) (wid : Nat) :
    streetWayIn (Elem.node nid c :: rest) wid ↔ streetWayIn rest wid := by
  constructor
  · rintro ⟨w, hw, hid, hst⟩
    rcases List.mem_cons.mp hw with h | h
    · cases h
    · exact ⟨w, h, hid, hst⟩
  · rintro ⟨w, hw, hid, hst⟩
    exact ⟨w, List.mem_cons_of_mem _ hw, hid, hst⟩

theorem streetWayIn_cons_other {α : Type} (rest : List (Elem α))
    (wid : Nat) :
    streetWayIn (Elem.other :: rest) wid ↔ streetWayIn rest wid := by
  constructor
  · rintro ⟨w, hw, hid, hst⟩
    rcases List.mem_cons.mp hw with h | h
    · cases h
    · exact ⟨w, h, hid, hst⟩
  · rintro ⟨w, hw, hid, hst⟩
    exact ⟨w, List.mem_cons_of_mem _ hw, hid, hst⟩

theorem streetWayIn_nil {α : Type} (wid : Nat) :
    ¬ streetWayIn ([] : List (Elem α)) wid := by
  rintro ⟨w, hw, -, -⟩
  cases hw

theorem streetWayRef_cons_way {α : Type} (w' : RawWay)
    (rest : List (Elem α)) (wid : Nat) :
    streetWayRef (Elem.way w' :: rest) wid ↔
      (w'.id = wid ∧ (way_scan w'.children).1 = true ∧
        (way_scan w'.children).2 ≠ []) ∨ streetWayRef rest wid := by
  constructor
  · rintro ⟨w, hw, hid, hst, hnz⟩
    rcases List.mem_cons.mp hw with h | h
    · injection h with h
      subst h
      exact Or.inl ⟨hid, hst, hnz⟩
    · exact Or.inr ⟨w, h, hid, hst, hnz⟩
  · rintro (⟨hid, hst, hnz⟩ | ⟨w, hw, hid, hst, hnz⟩)
    · exact ⟨w', List.mem_cons_self _ _, hid, hst, hnz⟩
    · exact ⟨w, List.mem_cons_of_mem _ hw, hid, hst, hnz⟩

theorem streetWayRef_cons_node {α : Type} (nid : Nat) (c : α)
    (rest : List (Elem α)) (wid : Nat) :
    streetWayRef (Elem.node nid c :: rest) wid ↔ streetWayRef rest wid := by
  constructor
  · rintro ⟨w, hw, hid, hst, hnz⟩
    rcases List.mem_cons.mp hw with h | h
    · cases h
    · exact ⟨w, h, hid, hst, hnz⟩
  · rintro ⟨w, hw, hid, hst, hnz⟩
    exact ⟨w, List.mem_cons_of_mem _ hw, hid, hst, hnz⟩

theorem streetWayRef_cons_other {α : Type} (rest : List (Elem α))
    (wid : Nat) :
    streetWayRef (Elem.other :: rest) wid ↔ streetWayRef rest wid := by
  constructor
  · rintro ⟨w, hw, hid, hst, hnz⟩
    rcases List.mem_cons.mp hw with h | h
    · cases h
    · exact ⟨w, h, hid, hst, hnz⟩
  · rintro ⟨w, hw, hid, hst, hnz⟩
    exact ⟨w, List.mem_cons_of_mem _ hw, hid, hst, hnz⟩

theorem streetWayRef_nil {α : Type} (wid : Nat) :
    ¬ streetWayRef ([] : List (Elem α)) wid := by
  rintro ⟨w, hw, -, -, -⟩
  cases hw

theorem appearsIn_cons (q : Nat × List Nat) (l : List (Nat × List Nat))
    (x : Nat) : appearsIn x (q :: l) ↔ x ∈ q.2 ∨ appearsIn x l := by
  rw [appearsIn, List.exists_mem_cons_iff]
  rfl

theorem appearsIn_nil (x : Nat) : ¬ appearsIn x [] := by
  rintro ⟨p, hp, -⟩
  cases hp

theorem appearsIn_add_inv (inv : List (Nat × List Nat)) (n w x : Nat) :
    appearsIn x (add_inv inv n w) ↔ appearsIn x inv ∨ x = w := by
  induction inv with
  | nil =>
    rw [add_inv]
    rw [appearsIn_cons]
    simp [appearsIn_nil, appearsIn]
  | cons p rest ih =>
    by_cases h : p.1 = n
    · rw [add_inv, if_pos h, appearsIn_cons, appearsIn_cons]
      simp only [List.mem_append, List.mem_singleton]
      tauto
    · rw [add_inv, if_neg h, appearsIn_cons, appearsIn_cons, ih]
      tauto

theorem appearsIn_fold_add_inv (nodes : List Nat) (w x : Nat) :
    ∀ inv : List (Nat × List Nat),
      appearsIn x (nodes.foldl (fun inv n => add_inv inv n w) inv) ↔
        appearsIn x inv ∨ (x = w ∧ nodes ≠ []) := by
  induction nodes with
  | nil =>
    intro inv
    simp
  | cons n rest ih =>
    intro inv
    rw [List.foldl_cons, ih, appearsIn_add_inv]
    constructor
    · rintro ((ha | he) | ⟨he, -⟩)
      · exact Or.inl ha
      · exact Or.inr ⟨he, List.cons_ne_nil n rest⟩
      · exact Or.inr ⟨he, List.cons_ne_nil n rest⟩
    · rintro (ha | ⟨he, -⟩)
      · exact Or.inl (Or.inl ha)
      · exact Or.inl (Or.inr he)

theorem mem_wayIds {α : Type} (root : List (Elem α)) (w : RawWay)
    (h : Elem.way w ∈ root) : w.id ∈ wayIds root := by
  rw [wayIds]
  exact List.mem_filterMap.mpr ⟨Elem.way w, h, rfl⟩

theorem wayIds_cons_way {α : Type} (w : RawWay) (rest : List (Elem α)) :
    wayIds (Elem.way w :: rest) = w.id :: wayIds rest := by
  rw [wayIds, wayIds, List.filterMap_cons]

theorem wayIds_cons_node {α : Type} (nid : Nat) (c : α)
    (rest : List (Elem α)) :
    wayIds (Elem.node nid c :: rest) = wayIds rest := by
  rw [wayIds, wayIds, List.filterMap_cons]

theorem wayIds_cons_other {α : Type} (rest : List (Elem α)) :
    wayIds (Elem.other :: rest) = wayIds rest := by
  rw [wayIds, wayIds, List.filterMap_cons]

theorem way_id_inj {α : Type} (root : List (Elem α))
    (hnd : (wayIds root).Nodup) (w w' : RawWay)
    (hw : Elem.way w ∈ root) (hw' : Elem.way w' ∈ root)
    (he : w.id = w'.id) : w = w' := by
  induction root with
  | nil => cases hw
  | cons e rest ih =>
    cases e with
    | way u =>
      rw [wayIds_cons_way] at hnd
      rcases List.nodup_cons.mp hnd with ⟨hnm, hnd'⟩
      rcases List.mem_cons.mp hw with h1 | h1
      · rcases List.mem_cons.mp hw' with h2 | h2
        · injection h1 with h1
          injection h2 with h2
          rw [h1, h2]
        · exfalso
          apply hnm
          injection h1 with h1
          subst h1
          exact he ▸ mem_wayIds rest w' h2
      · rcases List.mem_cons.mp hw' with h2 | h2
        · exfalso
          apply hnm
          injection h2 with h2
          subst h2
          exact he ▸ mem_wayIds rest w h1
        · exact ih hnd' h1 h2
    | node nid c =>
      rw [wayIds_cons_node] at hnd
      rcases List.mem_cons.mp hw with h1 | h1
      · cases h1
      · rcases List.mem_cons.mp hw' with h2 | h2
        · cases h2
        · exact ih hnd h1 h2
    | other =>
      rw [wayIds_cons_other] at hnd
      rcases List.mem_cons.mp hw with h1 | h1
      · cases h1
      · rcases List.mem_cons.mp hw' with h2 | h2
        · cases h2
        · exact ih hnd h1 h2

theorem addWay_eq_street (acc : List (Nat × List Nat) × List (Nat × List Nat))
    (w : RawWay) (hs : (way_scan w.children).1 = true) :
    addWay acc w =
      (dictInsert acc.1 w.id (way_scan w.children).2,
       (way_scan w.children).2.foldl (fun inv n => add_inv inv n w.id) acc.2) := by
  simp [addWay, hs]

theorem addWay_eq_not_street
    (acc : List (Nat × List Nat) × List (Nat × List Nat)) (w : RawWay)
    (hs : ¬ (way_scan w.children).1 = true) : addWay acc w = acc := by
  have hs' : (way_scan w.children).1 = false := by
    revert hs
    cases (way_scan w.children).1 <;> simp
  simp [addWay, hs']

theorem lookup_gaw_fold_fst {α : Type} (root : List (Elem α)) :
    ∀ (acc : List (Nat × List Nat) × List (Nat × List Nat)) (wid : Nat),
      (((root.foldl gaw_step acc).1).lookup wid).isSome = true ↔
        ((acc.1.lookup wid).isSome = true ∨ streetWayIn root wid) := by
  induction root with
  | nil =>
    intro acc wid
    simp [streetWayIn_nil]
  | cons e rest ih =>
    intro acc wid
    rw [List.foldl_cons, ih]
    cases e with
    | node nid c =>
      rw [streetWayIn_cons_node]
      exact Iff.rfl
    | other =>
      rw [streetWayIn_cons_other]
      exact Iff.rfl
    | way w' =>
      rw [streetWayIn_cons_way]
      by_cases hs : (way_scan w'.children).1 = true
      · have haw : (gaw_step acc (Elem.way w' : Elem α)).1 =
            dictInsert acc.1 w'.id (way_scan w'.children).2 := by
          show (addWay acc w').1 = _
          rw [addWay_eq_street acc w' hs]
        rw [haw, lookup_isSome_iff_mem_keys, mem_keys_dictInsert,
          ← lookup_isSome_iff_mem_keys]
        constructor
        · rintro ((he | ha) | hr)
          · exact Or.inr (Or.inl ⟨he.symm, hs⟩)
          · exact Or.inl ha
          · exact Or.inr (Or.inr hr)
        · rintro (ha | (⟨he, -⟩ | hr))
          · exact Or.inl (Or.inr ha)
          · exact Or.inl (Or.inl he.symm)
          · exact Or.inr hr
      · have haw : gaw_step acc (Elem.way w' : Elem α) = acc :=
          addWay_eq_not_street acc w' hs
        rw [haw]
        constructor
        · rintro (ha | hr)
          · exact Or.inl ha
          · exact Or.inr (Or.inr hr)
        · rintro (ha | (⟨-, hst⟩ | hr))
          · exact Or.inl ha
          · exact absurd hst hs
          · exact Or.inr hr

theorem appearsIn_gaw_fold {α : Type} (root : List (Elem α)) :
    ∀ (acc : List (Nat × List Nat) × List (Nat × List Nat)) (x : Nat),
      appearsIn x (root.foldl gaw_step acc).2 ↔
        (appearsIn x acc.2 ∨ streetWayRef root x) := by
  induction root with
  | nil =>
    intro acc x
    simp [streetWayRef_nil]
  | cons e rest ih =>
    intro acc x
    rw [List.foldl_cons, ih]
    cases e with
    | node nid c =>
      rw [streetWayRef_cons_node]
      exact Iff.rfl
    | other =>
      rw [streetWayRef_cons_other]
      exact Iff.rfl
    | way w' =>
      rw [streetWayRef_cons_way]
      by_cases hs : (way_scan w'.children).1 = true
      · have haw : (gaw_step acc (Elem.way w' : Elem α)).2 =
            (way_scan w'.children).2.foldl
              (fun inv n => add_inv inv n w'.id) acc.2 := by
          show (addWay acc w').2 = _
          rw [addWay_eq_street acc w' hs]
        rw [haw, appearsIn_fold_add_inv]
        constructor
        · rintro ((ha | ⟨he, hnz⟩) | hr)
          · exact Or.inl ha
          · exact Or.inr (Or.inl ⟨he.symm, hs, hnz⟩)
          · exact Or.inr (Or.inr hr)
        · rintro (ha | (⟨hid, -, hnz⟩ | hr))
          · exact Or.inl (Or.inl ha)
          · exact Or.inl (Or.inr ⟨hid.symm, hnz⟩)
          · exact Or.inr hr
      · have haw : gaw_step acc (Elem.way w' : Elem α) = acc :=
          addWay_eq_not_street acc w' hs
        rw [haw]
        constructor
        · rintro (ha | hr)
          · exact Or.inl ha
          · exact Or.inr (Or.inr hr)
        · rintro (ha | (⟨-, hst, -⟩ | hr))
          · exact Or.inl ha
          · exact absurd hst hs
          · exact Or.inr hr

theorem street_iff_tag (children : List WChild) :
    (way_scan children).1 = true ↔
      ∃ v, WChild.tag "highway" v ∈ children ∧ v ∈ WAY_TYPES := by
  rw [way_scan_eq]
  show children.any isHighwayTag = true ↔ _
  rw [List.any_eq_true]
  constructor
  · rintro ⟨c, hc, hct⟩
    rcases (isHighwayTag_eq_true c).mp hct with ⟨v, he, hv⟩
    subst he
    exact ⟨v, hc, hv⟩
  · rintro ⟨v, hvc, hv⟩
    exact ⟨WChild.tag "highway" v, hvc,
      (isHighwayTag_eq_true _).mpr ⟨v, rfl, hv⟩⟩

/-- C4: a raw way record is retained by the Way Filter iff at least one
of its tags has key `highway` with a value in `WAY_TYPES`, and the
retention decision is invariant under permutation of the way's children
(in particular, of its tags). -/
theorem way_filter_retains_iff_highway {α : Type} (root : List (Elem α))
    (hnd : (wayIds root).Nodup) (w : RawWay) (hw : Elem.way w ∈ root) :
    (((get_all_ways root).1.lookup w.id).isSome = true ↔
        ∃ v, WChild.tag "highway" v ∈ w.children ∧ v ∈ WAY_TYPES) ∧
      ∀ children' : List WChild, children'.Perm w.children →
        (way_scan children').1 = (way_scan w.children).1 := by
  constructor
  · rw [get_all_ways, lookup_gaw_fold_fst]
    constructor
    · rintro (ha | ⟨w', hw', hid, hst⟩)
      · simp at ha
      · have heq := way_id_inj root hnd w' w hw' hw hid
        subst heq
        exact (street_iff_tag w'.children).mp hst
    · intro hex
      exact Or.inr ⟨w, hw, rfl, (street_iff_tag w.children).mpr hex⟩
  · intro children' hperm
    rw [way_scan_eq, way_scan_eq]
    show children'.any isHighwayTag = w.children.any isHighwayTag
    apply Bool.coe_iff_coe.mp
    simp only [List.any_eq_true]
    constructor
    · rintro ⟨c, hc, hct⟩
      exact ⟨c, hperm.mem_iff.mp hc, hct⟩
    · rintro ⟨c, hc, hct⟩
      exact ⟨c, hperm.mem_iff.mpr hc, hct⟩

theorem way_filter_retains_iff_highway_witness :
    (wayIds ([Elem.way (RawWay.mk 1 [WChild.nd 7,
        WChild.tag "highway" "residential"])] : List (Elem Unit))).Nodup ∧
      Elem.way (RawWay.mk 1 [WChild.nd 7, WChild.tag "highway" "residential"]) ∈
        ([Elem.way (RawWay.mk 1 [WChild.nd 7,
          WChild.tag "highway" "residential"])] : List (Elem Unit)) ∧
      ((((get_all_ways ([Elem.way (RawWay.mk 1 [WChild.nd 7,
            WChild.tag "highway" "residential"])] :
            List (Elem Unit))).1.lookup
          (RawWay.mk 1 [WChild.nd 7,
            WChild.tag "highway" "residential"]).id).isSome = true ↔
          ∃ v, WChild.tag "highway" v ∈
              (RawWay.mk 1 [WChild.nd 7,
                WChild.tag "highway" "residential"]).children ∧
            v ∈ WAY_TYPES) ∧
        ∀ children' : List WChild,
          children'.Perm (RawWay.mk 1 [WChild.nd 7,
            WChild.tag "highway" "residential"]).children →
          (way_scan children').1 =
            (way_scan (RawWay.mk 1 [WChild.nd 7,
              WChild.tag "highway" "residential"]).children).1) :=
  ⟨by decide, by decide,
    way_filter_retains_iff_highway _ (by decide) _ (by decide)⟩

/-- C5 amended: a way whose node-reference list is empty is retained iff
it is street-classified (its id then maps to the empty node list), and it
contributes nothing to the inverted index: its id appears in no value
list of the inverted way index. -/
theorem zero_node_way_retention {α : Type} (root : List (Elem α))
    (hnd : (wayIds root).Nodup) (w : RawWay) (hw : Elem.way w ∈ root)
    (hz : (way_scan w.children).2 = []) :
    (((get_all_ways root).1.lookup w.id).isSome = true ↔
        (way_scan w.children).1 = true) ∧
      ∀ p ∈ (get_all_ways root).2, w.id ∉ p.2 := by
  constructor
  · rw [get_all_ways, lookup_gaw_fold_fst]
    constructor
    · rintro (ha | ⟨w', hw', hid, hst⟩)
      · simp at ha
      · have heq := way_id_inj root hnd w' w hw' hw hid
        subst heq
        exact hst
    · intro hst
      exact Or.inr ⟨w, hw, rfl, hst⟩
  · intro p hp hmem
    have hAp : appearsIn w.id (get_all_ways root).2 := ⟨p, hp, hmem⟩
    rw [get_all_ways, appearsIn_gaw_fold] at hAp
    rcases hAp with h0 | ⟨w', hw', hid, hst, hnz⟩
    · exact appearsIn_nil w.id h0
    · have heq := way_id_inj root hnd w' w hw' hw hid
      subst heq
      exact hnz hz

theorem zero_node_way_retention_witness :
    (wayIds ([Elem.way (RawWay.mk 1 [WChild.tag "highway" "residential"]),
        Elem.way (RawWay.mk 2 [WChild.nd 5, WChild.tag "highway" "service"])] :
        List (Elem Unit))).Nodup ∧
      Elem.way (RawWay.mk 1 [WChild.tag "highway" "residential"]) ∈
        ([Elem.way (RawWay.mk 1 [WChild.tag "highway" "residential"]),
          Elem.way (RawWay.mk 2 [WChild.nd 5, WChild.tag "highway" "service"])] :
          List (Elem Unit)) ∧
      (way_scan (RawWay.mk 1 [WChild.tag "highway" "residential"]).children).2
          = [] ∧
      ((((get_all_ways ([Elem.way (RawWay.mk 1
              [WChild.tag "highway" "residential"]),
            Elem.way (RawWay.mk 2 [WChild.nd 5,
              WChild.tag "highway" "service"])] :
            List (Elem Unit))).1.lookup
          (RawWay.mk 1 [WChild.tag "highway" "residential"]).id).isSome = true ↔
          (way_scan (RawWay.mk 1
            [WChild.tag "highway" "residential"]).children).1 = true) ∧
        ∀ p ∈ (get_all_ways ([Elem.way (RawWay.mk 1
              [WChild.tag "highway" "residential"]),
            Elem.way (RawWay.mk 2 [WChild.nd 5,
              WChild.tag "highway" "service"])] :
            List (Elem Unit))).2,
          (RawWay.mk 1 [WChild.tag "highway" "residential"]).id ∉ p.2) :=
  ⟨by decide, by decide, by decide,
    zero_node_way_retention _ (by decide) _ (by decide) (by decide)⟩
